import Mathlib

/-!
# Verification of `DynamicArray` (src/Linear-DS-Dynamic-Arrays/Linear-DS-Dynamic-Arrays.cpp)

A shallow embedding of the `DynamicArray<T>` class.  The C++ object holds
`int capacity`, `int currentSize`, and a heap buffer `T* data` whose live
elements occupy positions `0 .. currentSize-1`.  We model a container state
as its `capacity` together with the list of live elements (`data[0] ..
data[currentSize-1]`); slots beyond `currentSize` are never observable
through the public interface, so the live-element list together with the
capacity determines all public behaviour.  `currentSize` is the length of
the element list.  Elements are instantiated at `Int` (the `T = int`
instantiation exercised by the repository's `main`), except for `max`/`min`
whose `if constexpr` type dispatch is modelled generically.

C++ `int` arithmetic on `capacity`/`currentSize` is modelled on `Int`/`Nat`
(no overflow modelling); thrown exceptions are modelled by an explicit
error type carrying the C++ exception class and message.
-/

namespace DynArray

/-- The exceptions thrown by the class: `std::out_of_range(msg)` and
`std::runtime_error(msg)`, plus `std::bad_array_new_length`, which
`new T[n]` raises when the array bound `n` is negative. -/
inductive Err where
  | outOfRange (msg : String)
  | runtimeError (msg : String)
  | badArrayNewLength
  deriving DecidableEq, Repr

/-- State of a `DynamicArray<int>`: allocated capacity and the live
elements `data[0] .. data[currentSize-1]` (so `currentSize = elems.length`).
Reachable states always have a nonnegative capacity (a negative constructor
argument makes `new T[capacity]` throw before the object exists), so
capacity is a `Nat`. -/
structure DA where
  capacity : Nat
  elems : List Int
  deriving DecidableEq, Repr

/-- Source `int size() const { return currentSize; }` -/
def size (s : DA) : Int := s.elems.length

/-- Source `int getCapacity() const { return capacity; }` -/
def getCapacity (s : DA) : Int := s.capacity

/-- Source `bool isEmpty() const { return currentSize == 0; }` -/
def isEmpty (s : DA) : Bool := s.elems.length = 0

/-- Constructor `DynamicArray(int initialCapacity = 5)`: sets `capacity =
initialCapacity`, `currentSize = 0`, and allocates `new T[capacity]`.
There is no validation of the argument: `new T[n]` succeeds for any
`n ≥ 0` (a zero-length array is legal) and throws
`std::bad_array_new_length` when `n` is negative. -/
def mkDA (initialCapacity : Int) : Except Err DA :=
  if initialCapacity < 0 then .error .badArrayNewLength
  else .ok ⟨initialCapacity.toNat, []⟩

/-- A default-constructed `DynamicArray<int> arr;` — capacity 5, empty. -/
def mkDefault : DA := ⟨5, []⟩

/-- Source `void resize()`: `capacity *= 2`, allocate `new T[capacity]`, copy the
`currentSize` live elements in order, free the old buffer.  The live
elements are unchanged; only the capacity changes. -/
def resize (s : DA) : DA := ⟨2 * s.capacity, s.elems⟩

/-- Source `void pushBack(const T& value)`: resize when `currentSize == capacity`,
then `data[currentSize++] = value` — append at the end of the live range. -/
def pushBack (s : DA) (value : Int) : DA :=
  let s' := if s.elems.length = s.capacity then resize s else s
  ⟨s'.capacity, s'.elems ++ [value]⟩

/-- Source `void push(const T& value)` (push-front): resize when full, shift every
live element one slot up (loop from `currentSize-1` down to `0`), write
`value` at index 0, `currentSize++`. -/
def push (s : DA) (value : Int) : DA :=
  let s' := if s.elems.length = s.capacity then resize s else s
  ⟨s'.capacity, value :: s'.elems⟩

/-- Source `void insert(int index, const T& value)`: throws `out_of_range` when
`index < 0 || index > currentSize` (before touching anything), otherwise
resizes when full, shifts positions `[index, currentSize)` one slot up
(loop from `currentSize` down to `index+1`) and writes `value` at `index`.
Returned as (thrown exception if any, state after the call). -/
def insert (s : DA) (index : Int) (value : Int) : Option Err × DA :=
  if index < 0 ∨ index > (s.elems.length : Int) then
    (some (.outOfRange "Index out of bounds"), s)
  else
    let s' := if s.elems.length = s.capacity then resize s else s
    (none, ⟨s'.capacity,
      s'.elems.take index.toNat ++ value :: s'.elems.drop index.toNat⟩)

/-- Source `void pop()` (pop-front): no-op when empty; else shift positions
`[1, currentSize)` one slot down and `currentSize--`. -/
def pop (s : DA) : DA :=
  if s.elems.length = 0 then s else ⟨s.capacity, s.elems.tail⟩

/-- Source `void popBack()`: `currentSize--` when `currentSize > 0`; the vacated
slot leaves the live range. -/
def popBack (s : DA) : DA :=
  if 0 < s.elems.length then ⟨s.capacity, s.elems.dropLast⟩ else s

/-- Source `void removeAt(int index)`: throws `out_of_range` when
`index < 0 || index >= currentSize` (before touching anything), otherwise
shifts positions `(index, currentSize)` one slot down and `currentSize--`. -/
def removeAt (s : DA) (index : Int) : Option Err × DA :=
  if index < 0 ∨ index ≥ (s.elems.length : Int) then
    (some (.outOfRange "Index out of bounds"), s)
  else
    (none, ⟨s.capacity,
      s.elems.take index.toNat ++ s.elems.drop (index.toNat + 1)⟩)

/-- Source `T& at(int index)`: throws `out_of_range` when
`index < 0 || index >= currentSize`, else returns `data[index]`.  Reading
through the returned reference observes the stored element; the call itself
mutates nothing.  (`at` is a reserved word in Lean, hence `atIdx`.) -/
def atIdx (s : DA) (index : Int) : Except Err Int :=
  if h : index < 0 ∨ index ≥ (s.elems.length : Int) then
    .error (.outOfRange "Index out of bounds")
  else
    .ok (s.elems.get ⟨index.toNat, by omega⟩)

/-- Writing through the reference returned by `at(index)` (`arr.at(i) = v`):
out-of-range indices throw and leave the state alone, in-range indices
overwrite `data[index]`. -/
def setAt (s : DA) (index : Int) (value : Int) : Option Err × DA :=
  if index < 0 ∨ index ≥ (s.elems.length : Int) then
    (some (.outOfRange "Index out of bounds"), s)
  else
    (none, ⟨s.capacity, s.elems.set index.toNat value⟩)

/-- Source `void clear()`: free the buffer, `capacity = 5`, `currentSize = 0`,
allocate a fresh buffer. -/
def clear (_s : DA) : DA := ⟨5, []⟩

/-- The loop body of `find`: scan from logical position `i`, returning the
index of the first element equal to `key`; falling off the end throws
`std::out_of_range("Element not found")`. -/
def findAux (key : Int) : List Int → Nat → Except Err Int
  | [], _ => .error (.outOfRange "Element not found")
  | x :: xs, i => if x = key then .ok (i : Int) else findAux key xs (i + 1)

/-- Source `int find(const T& key) const`: linear scan over `[0, currentSize)`. -/
def find (s : DA) (key : Int) : Except Err Int := findAux key s.elems 0

/-- Copy assignment `*this = other` (self-assignment guarded; either way
the resulting state equals `other`'s capacity and live elements). -/
def assign (_s : DA) (other : DA) : DA := ⟨other.capacity, other.elems⟩

end DynArray

namespace DynArray

/-! ## Bubble sort (`DynamicArray sort() const`)

`sort` copies the receiver, then runs
`for (i = 0; i < currentSize-1; i++) for (j = 0; j < currentSize-i-1; j++)
  if (sorted[j] > sorted[j+1]) swap(sorted[j], sorted[j+1]);`
on the copy.  `cas l j` is one execution of the loop body (compare-and-swap
at positions `j`, `j+1`); `innerLoop l j k` runs the body `k` times starting
at position `j`; `outerLoop` runs the outer loop with `k` iterations left. -/

/-- One inner-loop body: `if (sorted[j] > sorted[j+1]) swap`.  Positions
without both neighbours present leave the list unchanged (never reached by
the in-range loop bounds of `sort`). -/
def cas : List Int → Nat → List Int
  | a :: b :: t, 0 => if b < a then b :: a :: t else a :: b :: t
  | x :: t, n + 1 => x :: cas t n
  | l, _ => l

/-- The inner loop: run `cas` at positions `j, j+1, …, j+k-1`. -/
def innerLoop : List Int → Nat → Nat → List Int
  | l, _, 0 => l
  | l, j, k + 1 => innerLoop (cas l j) (j + 1) k

/-- The outer loop of `sort` on a list of length `n`: with `k` iterations
remaining and loop counter `i`, run the inner loop over
`j ∈ [0, n - i - 1)`. -/
def outerLoop (n : Nat) : List Int → Nat → Nat → List Int
  | l, _, 0 => l
  | l, i, k + 1 => outerLoop n (innerLoop l 0 (n - i - 1)) (i + 1) k

/-- The element permutation computed by `sort` on the copied buffer:
`n - 1` outer iterations over a list of length `n`. -/
def sortList (l : List Int) : List Int := outerLoop l.length l 0 (l.length - 1)

/-- Source `DynamicArray sort() const`: copy-construct `sorted(*this)` (same
capacity, same elements), bubble-sort the copy in place, return it; the
receiver is not modified (the function is `const` and only writes into the
copy). -/
def sort (s : DA) : DA := ⟨s.capacity, sortList s.elems⟩

/-- Proof-side reformulation of one full inner pass of the bubble sort:
a single left-to-right sweep that swaps adjacent out-of-order elements.
`innerLoop l 0 k` is shown to equal `bpass` on the first `k+1` elements
with the rest of the list untouched (`inner_eq_bpass`). -/
def bpass : List Int → List Int
  | [] => []
  | [a] => [a]
  | a :: b :: t => if b < a then b :: bpass (a :: t) else a :: bpass (b :: t)
termination_by l => l.length

/-- Source `DynamicArray merge(const DynamicArray& other) const`: copy the
receiver, then `pushBack` every element of `other` in order. -/
def merge (s other : DA) : DA :=
  other.elems.foldl pushBack ⟨s.capacity, s.elems⟩

/-- Source `DynamicArray reverse() const`: copy the receiver, then
`reversed.data[i] = data[currentSize - i - 1]` for `i ∈ [0, currentSize)`. -/
def reverse (s : DA) : DA := ⟨s.capacity, s.elems.reverse⟩

/-! ## The public mutating interface as a step relation

The claims about invariants and observational equivalence quantify over
sequences of public operations on one container.  `Op` lists the public
member functions that can mutate the receiver, `step` executes one of them
(a throwing call leaves the receiver as it was at the throw point, which
for these operations is the entry state). -/

/-- A public mutating call on a `DynamicArray<int>` receiver. -/
inductive Op where
  | pushOp (v : Int)
  | pushBackOp (v : Int)
  | insertOp (i v : Int)
  | popOp
  | popBackOp
  | removeAtOp (i : Int)
  | setAtOp (i v : Int)
  | clearOp
  deriving DecidableEq, Repr

/-- Execute one public mutating call on the receiver. -/
def step (s : DA) : Op → DA
  | .pushOp v => push s v
  | .pushBackOp v => pushBack s v
  | .insertOp i v => (insert s i v).2
  | .popOp => pop s
  | .popBackOp => popBack s
  | .removeAtOp i => (removeAt s i).2
  | .setAtOp i v => (setAt s i v).2
  | .clearOp => clear s

/-- Execute a sequence of public mutating calls. -/
def applyOps (s : DA) (ops : List Op) : DA := ops.foldl step s

/-- Container states reachable from a default-constructed
`DynamicArray<int>` by public operations: any sequence of mutating member
calls, plus copy assignment from another reachable container (copy
construction yields the same state as its source, and `sort` / `merge` /
`reverse` / `findAll` build their fresh results out of copy construction
and `pushBack`, so no further cases are needed). -/
inductive Reachable : DA → Prop where
  | default_ctor : Reachable mkDefault
  | step_op (s : DA) (op : Op) : Reachable s → Reachable (step s op)
  | assign_from (s t : DA) : Reachable s → Reachable t → Reachable (assign s t)

/-! ## `max` / `min` and their `if constexpr` type dispatch

`max`/`min` first check `isEmpty()` and throw `std::runtime_error("Array is
empty")`, else start from `data[0]` and run a comparison loop selected at
compile time: one loop for arithmetic `T` (compare values), one for
`T = std::string` (compare `.length()`), and **no loop at all** for every
other type — the `if constexpr` chain has no `else`, so for such `T` the
function body reduces to `return data[0]`.  `TypeKind` records which of the
three compile-time cases applies to the instantiation, and the comparison
used by each loop is passed in as a boolean predicate. -/

/-- Which `if constexpr` branch of `max`/`min` the element type selects. -/
inductive TypeKind where
  | arithmetic
  | stringType
  | other
  deriving DecidableEq, Repr

/-- Source `T max() const`, for an instantiation of kind `kind`:
`gtVal a m` models `a > m` (the arithmetic branch) and `gtLen a m` models
`a.length() > m.length()` (the `std::string` branch). -/
def maxDA {α : Type} (kind : TypeKind) (gtVal : α → α → Bool)
    (gtLen : α → α → Bool) : List α → Except Err α
  | [] => .error (.runtimeError "Array is empty")
  | x :: xs =>
    .ok (match kind with
      | .arithmetic => xs.foldl (fun m a => if gtVal a m then a else m) x
      | .stringType => xs.foldl (fun m a => if gtLen a m then a else m) x
      | .other => x)

/-- Source `T min() const`, for an instantiation of kind `kind`:
`ltVal a m` models `a < m` and `ltLen a m` models
`a.length() < m.length()`. -/
def minDA {α : Type} (kind : TypeKind) (ltVal : α → α → Bool)
    (ltLen : α → α → Bool) : List α → Except Err α
  | [] => .error (.runtimeError "Array is empty")
  | x :: xs =>
    .ok (match kind with
      | .arithmetic => xs.foldl (fun m a => if ltVal a m then a else m) x
      | .stringType => xs.foldl (fun m a => if ltLen a m then a else m) x
      | .other => x)

end DynArray

namespace DynArray

/-! ## Basic lemmas about the operations -/

lemma resize_elems (s : DA) : (resize s).elems = s.elems := rfl

lemma resize_capacity (s : DA) : (resize s).capacity = 2 * s.capacity := rfl

lemma pushBack_elems (s : DA) (v : Int) :
    (pushBack s v).elems = s.elems ++ [v] := by
  unfold pushBack
  split <;> rfl

lemma push_elems (s : DA) (v : Int) :
    (push s v).elems = v :: s.elems := by
  unfold push
  split <;> rfl

lemma foldl_pushBack_elems (vs : List Int) :
    ∀ s : DA, (List.foldl pushBack s vs).elems = s.elems ++ vs := by
  induction vs with
  | nil => intro s; simp
  | cons v vs ih =>
    intro s
    simp only [List.foldl_cons, ih, pushBack_elems, List.append_assoc,
      List.singleton_append]

lemma atIdx_of_nat (s : DA) (i : Nat) (h : i < s.elems.length) :
    atIdx s (i : Int) = .ok (s.elems.get ⟨i, h⟩) := by
  unfold atIdx
  rw [dif_neg]
  · congr 1
  · omega

end DynArray

namespace DynArray

/-! ## C1 — `pushBack` sequences -/

/-- C1: starting from a freshly (default-)constructed container, after any
sequence of `pushBack` calls, `size()` equals the number of pushes made and
`at(i)` returns the i-th pushed value for every `i` in range. -/
theorem pushBack_sequence_spec (vs : List Int) :
    size (List.foldl pushBack mkDefault vs) = vs.length ∧
    ∀ i : Nat, (h : i < vs.length) →
      atIdx (List.foldl pushBack mkDefault vs) (i : Int) =
        .ok (vs.get ⟨i, h⟩) := by
  have he : (List.foldl pushBack mkDefault vs).elems = vs := by
    rw [foldl_pushBack_elems]
    rfl
  constructor
  · unfold size
    rw [he]
  · intro i h
    have h' : i < (List.foldl pushBack mkDefault vs).elems.length := by
      rw [he]; exact h
    rw [atIdx_of_nat _ i h', List.get_of_eq he]

/-- Witness for C1 at the concrete push sequence `10, 20, 30`. -/
theorem pushBack_sequence_spec_witness :
    size (List.foldl pushBack mkDefault [10, 20, 30]) = 3 ∧
    atIdx (List.foldl pushBack mkDefault [10, 20, 30]) ((1 : Nat) : Int) =
      .ok ([10, 20, 30].get ⟨1, by decide⟩) :=
  ⟨(pushBack_sequence_spec [10, 20, 30]).1,
   (pushBack_sequence_spec [10, 20, 30]).2 1 (by decide)⟩

/-! ## C2 — the growth operation -/

/-- C2 counterexample: on a container of capacity 0 (constructed by
`DynamicArray<int> a(0)`), `resize` sets the capacity to `2 * 0 = 0`, not
to `max(1, 2*capacity) = 1`, so the claimed growth formula fails. -/
theorem resize_capacity_zero_cex :
    (resize ⟨0, []⟩).capacity ≠ max 1 (2 * (0 : Nat)) := by
  decide

/-- C2 (amended): `resize` sets the new capacity to `2 * capacity` — which
agrees with `max(1, 2*capacity)` exactly when the old capacity is at least
1 — and preserves the length and every live element in order. -/
theorem resize_spec (s : DA) :
    (resize s).capacity = 2 * s.capacity ∧
    (resize s).elems = s.elems ∧
    (1 ≤ s.capacity → (resize s).capacity = max 1 (2 * s.capacity)) := by
  refine ⟨rfl, rfl, fun h => ?_⟩
  rw [resize_capacity]
  omega

/-- Witness for C2 (amended) on the default-constructed container
(capacity 5). -/
theorem resize_spec_witness :
    (resize mkDefault).capacity = 2 * mkDefault.capacity ∧
    (resize mkDefault).capacity = max 1 (2 * mkDefault.capacity) :=
  ⟨(resize_spec mkDefault).1, (resize_spec mkDefault).2.2 (by decide)⟩

/-! ## C3 — constructor capacity validation -/

/-- C3 counterexample: constructing with capacity `0` (which is `≤ 0`)
neither fails with `InvalidArgument` nor clamps to 1 — it succeeds and
yields a container of capacity `0`. -/
theorem mkDA_zero_cex :
    mkDA 0 = .ok ⟨0, []⟩ ∧ (0 : Nat) ≠ 1 := by
  constructor
  · rfl
  · decide

/-- C3 (amended): the constructor performs no capacity validation.  For
every caller-supplied capacity `c ≥ 0` (including `c = 0`) construction
succeeds with capacity `c` and length 0; for `c < 0` the allocation
`new T[capacity]` throws `std::bad_array_new_length`, not
`InvalidArgument`. -/
theorem mkDA_spec (c : Int) :
    (0 ≤ c → mkDA c = .ok ⟨c.toNat, []⟩) ∧
    (c < 0 → mkDA c = .error .badArrayNewLength) := by
  constructor
  · intro h
    unfold mkDA
    rw [if_neg]
    omega
  · intro h
    unfold mkDA
    rw [if_pos h]

/-- Witness for C3 (amended) at `c = 7` and `c = -3`. -/
theorem mkDA_spec_witness :
    mkDA 7 = .ok ⟨(7 : Int).toNat, []⟩ ∧
    mkDA (-3) = .error .badArrayNewLength :=
  ⟨(mkDA_spec 7).1 (by decide), (mkDA_spec (-3)).2 (by decide)⟩

/-! ## C5 — `insertAt` / `removeAt` round trip -/

lemma take_append_of_length (A B : List Int) (n : Nat) (h : A.length = n) :
    (A ++ B).take n = A := by
  subst h
  exact List.take_left A B

lemma drop_append_of_length (A B : List Int) (n : Nat) (h : A.length = n) :
    (A ++ B).drop n = B := by
  subst h
  exact List.drop_left A B

lemma insert_elems_of_le (s : DA) (i v : Int) (h0 : 0 ≤ i)
    (h1 : i ≤ (s.elems.length : Int)) :
    (insert s i v).1 = none ∧
    (insert s i v).2.elems =
      s.elems.take i.toNat ++ v :: s.elems.drop i.toNat := by
  unfold insert
  rw [if_neg (by omega)]
  constructor
  · rfl
  · show (if s.elems.length = s.capacity then resize s else s).elems.take _ ++
        v :: (if s.elems.length = s.capacity then resize s else s).elems.drop _ = _
    split <;> rfl

/-- C5: for every container, every value `v` and every index
`i ∈ [0, size()]`, `insertAt(i, v)` succeeds, the subsequent
`removeAt(i)` succeeds, and the element sequence (hence the length and
the value at every index) is restored to the original. -/
theorem insert_removeAt_roundtrip (s : DA) (i v : Int) (h0 : 0 ≤ i)
    (h1 : i ≤ (s.elems.length : Int)) :
    (insert s i v).1 = none ∧
    (removeAt (insert s i v).2 i).1 = none ∧
    (removeAt (insert s i v).2 i).2.elems = s.elems := by
  obtain ⟨hok, he⟩ := insert_elems_of_le s i v h0 h1
  set k := i.toNat with hk
  have hkle : k ≤ s.elems.length := by omega
  have hlenA : (s.elems.take k).length = k := by
    simp [List.length_take]
    omega
  have hlen' : (insert s i v).2.elems.length = s.elems.length + 1 := by
    rw [he]
    simp
    omega
  refine ⟨hok, ?_, ?_⟩
  · unfold removeAt
    rw [if_neg (by omega)]
  · unfold removeAt
    rw [if_neg (by omega)]
    show (insert s i v).2.elems.take k ++ (insert s i v).2.elems.drop (k + 1) = _
    rw [he]
    have htake : (s.elems.take k ++ v :: s.elems.drop k).take k = s.elems.take k :=
      take_append_of_length _ _ _ hlenA
    have hdrop : (s.elems.take k ++ v :: s.elems.drop k).drop (k + 1) =
        s.elems.drop k := by
      have h1' : (s.elems.take k ++ v :: s.elems.drop k).drop (k + 1) =
          ((s.elems.take k ++ v :: s.elems.drop k).drop k).drop 1 := by
        rw [List.drop_drop]
      rw [h1', drop_append_of_length _ _ _ hlenA]
      rfl
    rw [htake, hdrop, List.take_append_drop]

/-- Witness for C5: insert `99` at index 1 of `[10, 20, 30]`, then remove
at index 1. -/
theorem insert_removeAt_roundtrip_witness :
    (insert ⟨5, [10, 20, 30]⟩ 1 99).1 = none ∧
    (removeAt (insert ⟨5, [10, 20, 30]⟩ 1 99).2 1).1 = none ∧
    (removeAt (insert ⟨5, [10, 20, 30]⟩ 1 99).2 1).2.elems = [10, 20, 30] :=
  insert_removeAt_roundtrip ⟨5, [10, 20, 30]⟩ 1 99 (by decide) (by decide)

/-! ## C7 — `find` -/

lemma findAux_spec (key : Int) :
    ∀ (l : List Int) (i : Nat),
      (key ∈ l → ∃ n : Nat, n < l.length ∧
        findAux key l i = .ok ((i + n : Nat) : Int) ∧
        l.getD n 0 = key ∧ ∀ m : Nat, m < n → l.getD m 0 ≠ key) ∧
      (key ∉ l → findAux key l i = .error (.outOfRange "Element not found")) := by
  intro l
  induction l with
  | nil =>
    intro i
    exact ⟨fun h => absurd h (List.not_mem_nil key), fun _ => rfl⟩
  | cons x xs ih =>
    intro i
    by_cases hx : x = key
    · refine ⟨fun _ => ⟨0, by simp, ?_, by simpa using hx, by omega⟩, ?_⟩
      · show (if x = key then Except.ok ((i : Nat) : Int) else findAux key xs (i + 1)) = _
        rw [if_pos hx]
        norm_num
      · intro hmem
        exact absurd (hx ▸ List.mem_cons_self x xs) hmem
    · have hstep : findAux key (x :: xs) i = findAux key xs (i + 1) := by
        show (if x = key then Except.ok ((i : Nat) : Int) else findAux key xs (i + 1)) = _
        rw [if_neg hx]
      constructor
      · intro hmem
        have hmem' : key ∈ xs := by
          rcases List.mem_cons.mp hmem with h | h
          · exact absurd h.symm hx
          · exact h
        obtain ⟨n, hn, hfind, hget, hmin⟩ := (ih (i + 1)).1 hmem'
        refine ⟨n + 1, by simpa using hn, ?_, by simpa using hget, ?_⟩
        · rw [hstep, hfind]
          congr 1
          omega
        · intro m hm
          cases m with
          | zero => simpa using hx
          | succ m' =>
            have := hmin m' (by omega)
            simpa using this
      · intro hmem
        have hmem' : key ∉ xs := fun h => hmem (List.mem_cons_of_mem x h)
        rw [hstep]
        exact (ih (i + 1)).2 hmem'

/-- C7 counterexample: when no element matches, `find` throws
`std::out_of_range("Element not found")` — the very same exception class
thrown for out-of-range indices (e.g. by `at`) — so the failure is *not* a
condition distinct from `OutOfRange`.  (The demo `main` relies on this,
catching `std::out_of_range` around `arr.find(999)`.) -/
theorem find_notfound_cex :
    find ⟨5, [10, 20, 30]⟩ 999 = .error (.outOfRange "Element not found") ∧
    atIdx ⟨5, [10, 20, 30]⟩ 999 = .error (.outOfRange "Index out of bounds") := by
  constructor
  · rfl
  · rfl

/-- C7 (amended): `find(v)` returns the smallest index in `[0, length)`
whose stored element equals `v` when one exists; when no element equals
`v`, it fails by throwing `std::out_of_range("Element not found")` — the
same exception class used for out-of-range indices, distinguished only by
its message, rather than a distinct `NotFound` condition. -/
theorem find_spec (s : DA) (key : Int) :
    (key ∈ s.elems → ∃ n : Nat, n < s.elems.length ∧
      find s key = .ok (n : Int) ∧ s.elems.getD n 0 = key ∧
      ∀ m : Nat, m < n → s.elems.getD m 0 ≠ key) ∧
    (key ∉ s.elems →
      find s key = .error (.outOfRange "Element not found")) := by
  have h := findAux_spec key s.elems 0
  refine ⟨fun hmem => ?_, h.2⟩
  obtain ⟨n, hn, hfind, hget, hmin⟩ := h.1 hmem
  exact ⟨n, hn, by simpa using hfind, hget, hmin⟩

/-- Witness for C7 (amended): `find(99)` on `[10, 99, 30]` and `find(77)`
on the same container. -/
theorem find_spec_witness :
    (∃ n : Nat, n < ([10, 99, 30] : List Int).length ∧
      find ⟨5, [10, 99, 30]⟩ 99 = .ok (n : Int) ∧
      ([10, 99, 30] : List Int).getD n 0 = 99 ∧
      ∀ m : Nat, m < n → ([10, 99, 30] : List Int).getD m 0 ≠ 99) ∧
    find ⟨5, [10, 99, 30]⟩ 77 = .error (.outOfRange "Element not found") :=
  ⟨(find_spec ⟨5, [10, 99, 30]⟩ 99).1 (by decide),
   (find_spec ⟨5, [10, 99, 30]⟩ 77).2 (by decide)⟩

/-! ## C8 — `clear` restores the freshly-constructed state -/

/-- C8: `clear()` yields `size() == 0`, and the resulting state is *equal*
to that of a freshly default-constructed `DynamicArray<int>` (capacity 5,
no live elements) — hence every subsequent sequence of public operations
produces identical results on both. -/
theorem clear_spec (s : DA) :
    clear s = mkDefault ∧
    size (clear s) = 0 ∧
    ∀ ops : List Op, applyOps (clear s) ops = applyOps mkDefault ops := by
  exact ⟨rfl, rfl, fun _ => rfl⟩

/-! ## C9 — `max` / `min` on non-arithmetic, non-string element types -/

/-- C9: when the element type is neither arithmetic nor `std::string`,
both `if constexpr` comparison loops are compiled out, so on every
non-empty container `max()` and `min()` return `data[0]` — regardless of
the comparison predicates and of the remaining elements. -/
theorem max_min_other_kind {α : Type} (gtVal gtLen ltVal ltLen : α → α → Bool)
    (x : α) (xs : List α) :
    maxDA .other gtVal gtLen (x :: xs) = .ok x ∧
    minDA .other ltVal ltLen (x :: xs) = .ok x := by
  exact ⟨rfl, rfl⟩

/-! ## C10 — failing `insert` / `removeAt` / `at` leave the state intact -/

/-- C10: each bounds-checked operation validates its index *before* any
mutation, so a failing call reports `std::out_of_range` and leaves the
container exactly as it was: `insert` with `index < 0 ∨ index > length`,
and `removeAt` / `at` (and writes through `at`) with
`index < 0 ∨ index ≥ length`, return the error with the state unchanged
(same length, capacity, and stored elements). -/
theorem failing_ops_preserve_state (s : DA) (i v : Int) :
    (i < 0 ∨ i > (s.elems.length : Int) →
      insert s i v = (some (.outOfRange "Index out of bounds"), s)) ∧
    (i < 0 ∨ i ≥ (s.elems.length : Int) →
      removeAt s i = (some (.outOfRange "Index out of bounds"), s) ∧
      atIdx s i = .error (.outOfRange "Index out of bounds") ∧
      setAt s i v = (some (.outOfRange "Index out of bounds"), s)) := by
  constructor
  · intro h
    unfold insert
    rw [if_pos h]
  · intro h
    refine ⟨?_, ?_, ?_⟩
    · unfold removeAt
      rw [if_pos h]
    · unfold atIdx
      rw [dif_pos h]
    · unfold setAt
      rw [if_pos h]

/-- Witness for C10 at index `-1` (and, via the second conjunct, at the
one-past-the-end index of a concrete container). -/
theorem failing_ops_preserve_state_witness :
    insert ⟨5, [10, 20, 30]⟩ (-1) 7 =
      (some (.outOfRange "Index out of bounds"), ⟨5, [10, 20, 30]⟩) ∧
    removeAt ⟨5, [10, 20, 30]⟩ 3 =
      (some (.outOfRange "Index out of bounds"), ⟨5, [10, 20, 30]⟩) := by
  constructor
  · exact (failing_ops_preserve_state ⟨5, [10, 20, 30]⟩ (-1) 7).1 (by decide)
  · exact ((failing_ops_preserve_state ⟨5, [10, 20, 30]⟩ 3 7).2 (by decide)).1

/-! ## C4 — the `length ≤ capacity` invariant on reachable states -/

lemma step_preserves_inv (s : DA) (op : Op)
    (h1 : 1 ≤ s.capacity) (h2 : s.elems.length ≤ s.capacity) :
    1 ≤ (step s op).capacity ∧
    (step s op).elems.length ≤ (step s op).capacity := by
  cases op with
  | pushOp v =>
    show 1 ≤ (push s v).capacity ∧ (push s v).elems.length ≤ (push s v).capacity
    unfold push
    split
    next hc => simp only [resize, List.length_cons]; constructor <;> omega
    next hc => simp only [List.length_cons]; constructor <;> omega
  | pushBackOp v =>
    show 1 ≤ (pushBack s v).capacity ∧
        (pushBack s v).elems.length ≤ (pushBack s v).capacity
    unfold pushBack
    split
    next hc =>
      simp only [resize, List.length_append, List.length_singleton]
      constructor <;> omega
    next hc =>
      simp only [List.length_append, List.length_singleton]
      constructor <;> omega
  | insertOp i v =>
    show 1 ≤ (insert s i v).2.capacity ∧
        (insert s i v).2.elems.length ≤ (insert s i v).2.capacity
    unfold insert
    split
    next hrange => exact ⟨h1, h2⟩
    next hrange =>
      have hk : i.toNat ≤ s.elems.length := by omega
      split
      next hc =>
        simp only [resize, List.length_append, List.length_cons,
          List.length_take, List.length_drop]
        constructor <;> omega
      next hc =>
        simp only [List.length_append, List.length_cons, List.length_take,
          List.length_drop]
        constructor <;> omega
  | popOp =>
    show 1 ≤ (pop s).capacity ∧ (pop s).elems.length ≤ (pop s).capacity
    unfold pop
    split
    next hc => exact ⟨h1, h2⟩
    next hc =>
      simp only [List.length_tail]
      constructor <;> omega
  | popBackOp =>
    show 1 ≤ (popBack s).capacity ∧
        (popBack s).elems.length ≤ (popBack s).capacity
    unfold popBack
    split
    next hc =>
      simp only [List.length_dropLast]
      constructor <;> omega
    next hc => exact ⟨h1, h2⟩
  | setAtOp i v =>
    show 1 ≤ (setAt s i v).2.capacity ∧
        (setAt s i v).2.elems.length ≤ (setAt s i v).2.capacity
    unfold setAt
    split
    next hrange => exact ⟨h1, h2⟩
    next hrange =>
      simp only [List.length_set]
      exact ⟨h1, h2⟩
  | removeAtOp i =>
    show 1 ≤ (removeAt s i).2.capacity ∧
        (removeAt s i).2.elems.length ≤ (removeAt s i).2.capacity
    unfold removeAt
    split
    next hrange => exact ⟨h1, h2⟩
    next hrange =>
      simp only [List.length_append, List.length_take, List.length_drop]
      constructor <;> omega
  | clearOp =>
    show 1 ≤ (clear s).capacity ∧ (clear s).elems.length ≤ (clear s).capacity
    exact ⟨by show (1 : Nat) ≤ 5; omega, by show (0 : Nat) ≤ 5; omega⟩

lemma reachable_inv_aux (s : DA) (h : Reachable s) :
    1 ≤ s.capacity ∧ s.elems.length ≤ s.capacity := by
  induction h with
  | default_ctor =>
    exact ⟨by show (1 : Nat) ≤ 5; omega, by show (0 : Nat) ≤ 5; omega⟩
  | step_op s op _ ih => exact step_preserves_inv s op ih.1 ih.2
  | assign_from s t _ _ _ iht => exact iht

lemma reachable_applyOps (s : DA) (ops : List Op) (h : Reachable s) :
    Reachable (applyOps s ops) := by
  induction ops generalizing s with
  | nil => exact h
  | cons op ops ih => exact ih (step s op) (Reachable.step_op s op h)

/-- C4: in every state reachable from a default-constructed container by
public operations, `0 ≤ length ≤ capacity` holds (so
`capacity() ≥ size()`), and a `pushBack`, `pushFront` (`push`) or
`insertAt` (with an in-range index) issued when `length == capacity`
doubles the capacity before the write. -/
theorem reachable_invariant (s : DA) (h : Reachable s) :
    (0 ≤ size s ∧ size s ≤ getCapacity s) ∧
    (∀ v : Int, s.elems.length = s.capacity →
      (pushBack s v).capacity = 2 * s.capacity ∧
      (push s v).capacity = 2 * s.capacity) ∧
    (∀ i v : Int, 0 ≤ i → i ≤ (s.elems.length : Int) →
      s.elems.length = s.capacity →
      (insert s i v).2.capacity = 2 * s.capacity) := by
  obtain ⟨h1, h2⟩ := reachable_inv_aux s h
  refine ⟨⟨?_, ?_⟩, fun v hfull => ⟨?_, ?_⟩, fun i v hi0 hi1 hfull => ?_⟩
  · unfold size
    omega
  · unfold size getCapacity
    omega
  · unfold pushBack
    rw [if_pos hfull]
    rfl
  · unfold push
    rw [if_pos hfull]
    rfl
  · unfold insert
    rw [if_neg (by omega)]
    show (let s' := if s.elems.length = s.capacity then resize s else s
      ((none : Option Err), (⟨s'.capacity,
        s'.elems.take i.toNat ++ v :: s'.elems.drop i.toNat⟩ : DA))).2.capacity = _
    rw [if_pos hfull]
    rfl

/-- Witness for C4: the state after five `pushBack`s from a default
construction (full: length 5 = capacity 5) satisfies the invariant, and a
further `pushBack` doubles the capacity to 10. -/
theorem reachable_invariant_witness :
    size (applyOps mkDefault (List.replicate 5 (Op.pushBackOp 1))) ≤
      getCapacity (applyOps mkDefault (List.replicate 5 (Op.pushBackOp 1))) ∧
    (pushBack (applyOps mkDefault (List.replicate 5 (Op.pushBackOp 1))) 2).capacity =
      2 * (applyOps mkDefault (List.replicate 5 (Op.pushBackOp 1))).capacity := by
  have h := reachable_invariant _
    (reachable_applyOps mkDefault (List.replicate 5 (Op.pushBackOp 1))
      Reachable.default_ctor)
  exact ⟨h.1.2, (h.2.1 2 (by decide)).1⟩

/-! ## C6 — `sort` returns a sorted permutation

The plan: `cas`/`innerLoop` (the faithful loop translation) are related to
the structural single sweep `bpass` (`inner_eq_bpass`); `bpass` permutes
its input and carries a maximum to the last position (`bpass_decomp`); the
outer loop maintains the invariant "the final segment is sorted and
dominates the initial segment" (`outerLoop_inv`). -/

lemma cas_nil (j : Nat) : cas [] j = [] := by
  cases j <;> rfl

lemma cas_single (a : Int) (j : Nat) : cas [a] j = [a] := by
  cases j <;> rfl

lemma cas_cons_succ (x : Int) (l : List Int) (n : Nat) :
    cas (x :: l) (n + 1) = x :: cas l n := by
  cases l <;> rfl

lemma cas_perm (l : List Int) : ∀ j : Nat, (cas l j).Perm l := by
  induction l with
  | nil =>
    intro j
    rw [cas_nil]
  | cons x xs ih =>
    intro j
    cases j with
    | zero =>
      cases xs with
      | nil => rw [cas_single]
      | cons b t =>
        show (if b < x then b :: x :: t else x :: b :: t).Perm (x :: b :: t)
        split
        · exact List.Perm.swap x b t
        · exact List.Perm.refl _
    | succ n =>
      rw [cas_cons_succ]
      exact (ih n).cons x

lemma innerLoop_nil (k : Nat) : ∀ j : Nat, innerLoop [] j k = [] := by
  induction k with
  | zero => intro j; rfl
  | succ k ih =>
    intro j
    show innerLoop (cas [] j) (j + 1) k = []
    rw [cas_nil]
    exact ih (j + 1)

lemma innerLoop_cons_succ (k : Nat) :
    ∀ (x : Int) (l : List Int) (j : Nat),
      innerLoop (x :: l) (j + 1) k = x :: innerLoop l j k := by
  induction k with
  | zero => intro x l j; rfl
  | succ k ih =>
    intro x l j
    show innerLoop (cas (x :: l) (j + 1)) (j + 2) k = _
    rw [cas_cons_succ, ih]
    rfl

lemma innerLoop_perm (k : Nat) :
    ∀ (l : List Int) (j : Nat), (innerLoop l j k).Perm l := by
  induction k with
  | zero => intro l j; exact List.Perm.refl _
  | succ k ih =>
    intro l j
    show (innerLoop (cas l j) (j + 1) k).Perm l
    exact (ih (cas l j) (j + 1)).trans (cas_perm l j)

lemma bpass_nil : bpass [] = [] := by
  simp only [bpass]

lemma bpass_single (a : Int) : bpass [a] = [a] := by
  simp only [bpass]

lemma bpass_cons_cons (a b : Int) (t : List Int) :
    bpass (a :: b :: t) =
      if b < a then b :: bpass (a :: t) else a :: bpass (b :: t) := by
  simp only [bpass]

lemma inner_eq_bpass (k : Nat) :
    ∀ l : List Int, innerLoop l 0 k = bpass (l.take (k + 1)) ++ l.drop (k + 1) := by
  induction k with
  | zero =>
    intro l
    cases l with
    | nil =>
      show ([] : List Int) = bpass [] ++ []
      rw [bpass_nil]
      rfl
    | cons x xs =>
      show x :: xs = bpass [x] ++ xs
      rw [bpass_single]
      rfl
  | succ k ih =>
    intro l
    match l with
    | [] =>
      show innerLoop [] 0 (k + 1) = bpass [] ++ []
      rw [innerLoop_nil, bpass_nil]
      rfl
    | [a] =>
      show innerLoop (cas [a] 0) 1 k = bpass [a] ++ []
      rw [cas_single]
      show innerLoop [a] (0 + 1) k = bpass [a] ++ []
      rw [innerLoop_cons_succ, innerLoop_nil, bpass_single]
      rfl
    | a :: b :: t =>
      show innerLoop (cas (a :: b :: t) 0) 1 k =
        bpass (a :: b :: t.take k) ++ t.drop k
      have hcas : cas (a :: b :: t) 0 =
          if b < a then b :: a :: t else a :: b :: t := rfl
      rw [hcas, bpass_cons_cons]
      by_cases hab : b < a
      · simp only [if_pos hab]
        show innerLoop (b :: a :: t) (0 + 1) k = _
        rw [innerLoop_cons_succ, ih]
        have h1 : (a :: t).take (k + 1) = a :: t.take k := rfl
        have h2 : (a :: t).drop (k + 1) = t.drop k := rfl
        rw [h1, h2]
        rfl
      · simp only [if_neg hab]
        show innerLoop (a :: b :: t) (0 + 1) k = _
        rw [innerLoop_cons_succ, ih]
        have h1 : (b :: t).take (k + 1) = b :: t.take k := rfl
        have h2 : (b :: t).drop (k + 1) = t.drop k := rfl
        rw [h1, h2]
        rfl

lemma bpass_perm_aux (n : Nat) :
    ∀ l : List Int, l.length ≤ n → (bpass l).Perm l := by
  induction n with
  | zero =>
    intro l h
    have : l = [] := List.length_eq_zero.mp (by omega)
    subst this
    rw [bpass_nil]
  | succ n ih =>
    intro l h
    match l with
    | [] => rw [bpass_nil]
    | [a] => rw [bpass_single]
    | a :: b :: t =>
      rw [bpass_cons_cons]
      have hlen : (a :: t).length ≤ n ∧ (b :: t).length ≤ n := by
        simp at h ⊢
        omega
      split
      next hab =>
        exact ((ih (a :: t) hlen.1).cons b).trans (List.Perm.swap a b t)
      next hab =>
        exact (ih (b :: t) hlen.2).cons a

lemma bpass_perm (l : List Int) : (bpass l).Perm l :=
  bpass_perm_aux l.length l le_rfl

lemma bpass_decomp_aux (n : Nat) :
    ∀ l : List Int, l.length ≤ n → l ≠ [] →
      ∃ ys M, bpass l = ys ++ [M] ∧ ∀ x ∈ bpass l, x ≤ M := by
  induction n with
  | zero =>
    intro l h hne
    exact absurd (List.length_eq_zero.mp (by omega)) hne
  | succ n ih =>
    intro l h hne
    match l with
    | [a] =>
      refine ⟨[], a, by rw [bpass_single]; rfl, ?_⟩
      rw [bpass_single]
      intro x hx
      rw [List.mem_singleton.mp hx]
    | a :: b :: t =>
      rw [bpass_cons_cons]
      have hlen : (a :: t).length ≤ n ∧ (b :: t).length ≤ n := by
        simp at h ⊢
        omega
      split
      next hab =>
        obtain ⟨ys, M, hys, hle⟩ := ih (a :: t) hlen.1 (by simp)
        have haM : a ≤ M := hle a ((bpass_perm (a :: t)).mem_iff.mpr (by simp))
        refine ⟨b :: ys, M, by rw [hys]; rfl, ?_⟩
        intro x hx
        rcases List.mem_cons.mp hx with hxb | hxmem
        · rw [hxb]
          exact le_of_lt (lt_of_lt_of_le hab haM)
        · exact hle x hxmem
      next hab =>
        obtain ⟨ys, M, hys, hle⟩ := ih (b :: t) hlen.2 (by simp)
        have hab' : a ≤ b := le_of_not_lt hab
        have hbM : b ≤ M := hle b ((bpass_perm (b :: t)).mem_iff.mpr (by simp))
        refine ⟨a :: ys, M, by rw [hys]; rfl, ?_⟩
        intro x hx
        rcases List.mem_cons.mp hx with hxa | hxmem
        · rw [hxa]
          exact le_trans hab' hbM
        · exact hle x hxmem

lemma bpass_decomp (l : List Int) (hne : l ≠ []) :
    ∃ ys M, bpass l = ys ++ [M] ∧ ∀ x ∈ bpass l, x ≤ M :=
  bpass_decomp_aux l.length l le_rfl hne

lemma inv_step (l : List Int) (p : Nat) (hp1 : 1 ≤ p) (hp2 : p ≤ l.length)
    (hs : (l.drop p).Sorted (· ≤ ·))
    (hb : ∀ x ∈ l.take p, ∀ y ∈ l.drop p, x ≤ y) :
    (bpass (l.take p) ++ l.drop p).length = l.length ∧
    ((bpass (l.take p) ++ l.drop p).drop (p - 1)).Sorted (· ≤ ·) ∧
    (∀ x ∈ (bpass (l.take p) ++ l.drop p).take (p - 1),
      ∀ y ∈ (bpass (l.take p) ++ l.drop p).drop (p - 1), x ≤ y) := by
  have hA : (l.take p).length = p := by
    simp [List.length_take]
    omega
  have hAne : l.take p ≠ [] := by
    have hpos : 0 < (l.take p).length := by omega
    exact List.length_pos.mp hpos
  obtain ⟨ys, M, hBM, hle⟩ := bpass_decomp (l.take p) hAne
  have hBlen : (bpass (l.take p)).length = p := by
    rw [(bpass_perm (l.take p)).length_eq, hA]
  have hyslen : ys.length = p - 1 := by
    have := congrArg List.length hBM
    simp [hBlen] at this
    omega
  have hMA : M ∈ l.take p := by
    refine (bpass_perm (l.take p)).mem_iff.mp ?_
    rw [hBM]
    simp
  have hEq : bpass (l.take p) ++ l.drop p = ys ++ (M :: l.drop p) := by
    rw [hBM, List.append_assoc]
    rfl
  have hdropEq : (bpass (l.take p) ++ l.drop p).drop (p - 1) = M :: l.drop p := by
    rw [hEq]
    exact drop_append_of_length _ _ _ hyslen
  have htakeEq : (bpass (l.take p) ++ l.drop p).take (p - 1) = ys := by
    rw [hEq]
    exact take_append_of_length _ _ _ hyslen
  refine ⟨?_, ?_, ?_⟩
  · rw [List.length_append, hBlen, List.length_drop]
    omega
  · rw [hdropEq]
    exact List.sorted_cons.mpr ⟨fun y hy => hb M hMA y hy, hs⟩
  · rw [htakeEq, hdropEq]
    intro x hx y hy
    have hxB : x ∈ bpass (l.take p) := by
      rw [hBM]
      exact List.mem_append_left _ hx
    have hxA : x ∈ l.take p := (bpass_perm (l.take p)).mem_iff.mp hxB
    rcases List.mem_cons.mp hy with hyM | hyD
    · rw [hyM]
      exact hle x hxB
    · exact hb x hxA y hyD

lemma outerLoop_perm (k : Nat) :
    ∀ (n : Nat) (l : List Int) (i : Nat), (outerLoop n l i k).Perm l := by
  induction k with
  | zero => intro n l i; exact List.Perm.refl _
  | succ k ih =>
    intro n l i
    show (outerLoop n (innerLoop l 0 (n - i - 1)) (i + 1) k).Perm l
    exact (ih n _ (i + 1)).trans (innerLoop_perm _ l 0)

lemma outerLoop_inv (n : Nat) :
    ∀ (k i : Nat) (l : List Int), l.length = n → i + k + 1 = n →
      (l.drop (n - i)).Sorted (· ≤ ·) →
      (∀ x ∈ l.take (n - i), ∀ y ∈ l.drop (n - i), x ≤ y) →
      ((outerLoop n l i k).drop (n - i - k)).Sorted (· ≤ ·) ∧
      (∀ x ∈ (outerLoop n l i k).take (n - i - k),
        ∀ y ∈ (outerLoop n l i k).drop (n - i - k), x ≤ y) := by
  intro k
  induction k with
  | zero =>
    intro i l hlen hik hs hb
    constructor
    · show ((outerLoop n l i 0).drop (n - i - 0)).Sorted (· ≤ ·)
      show (l.drop (n - i - 0)).Sorted (· ≤ ·)
      rw [Nat.sub_zero]
      exact hs
    · show ∀ x ∈ l.take (n - i - 0), ∀ y ∈ l.drop (n - i - 0), x ≤ y
      rw [Nat.sub_zero]
      exact hb
  | succ k ih =>
    intro i l hlen hik hs hb
    have hinner : innerLoop l 0 (n - i - 1) =
        bpass (l.take (n - i)) ++ l.drop (n - i) := by
      have harith : n - i - 1 + 1 = n - i := by omega
      rw [inner_eq_bpass, harith]
    have hstep := inv_step l (n - i) (by omega) (by omega) hs hb
    show ((outerLoop n (innerLoop l 0 (n - i - 1)) (i + 1) k).drop
        (n - i - (k + 1))).Sorted (· ≤ ·) ∧
      (∀ x ∈ (outerLoop n (innerLoop l 0 (n - i - 1)) (i + 1) k).take
          (n - i - (k + 1)),
        ∀ y ∈ (outerLoop n (innerLoop l 0 (n - i - 1)) (i + 1) k).drop
          (n - i - (k + 1)), x ≤ y)
    rw [hinner]
    have harith2 : n - (i + 1) = n - i - 1 := by omega
    have hih := ih (i + 1) (bpass (l.take (n - i)) ++ l.drop (n - i))
      (by rw [hstep.1, hlen]) (by omega)
      (by rw [harith2]; exact hstep.2.1)
      (by rw [harith2]; exact hstep.2.2)
    have harith3 : n - (i + 1) - k = n - i - (k + 1) := by omega
    rw [harith3] at hih
    exact hih

lemma sortList_perm (l : List Int) : (sortList l).Perm l := by
  unfold sortList
  exact outerLoop_perm _ _ _ _

lemma sortList_sorted (l : List Int) : (sortList l).Sorted (· ≤ ·) := by
  unfold sortList
  rcases hn : l.length with _ | n
  · have hnil : l = [] := List.length_eq_zero.mp hn
    subst hnil
    show (([] : List Int)).Sorted (· ≤ ·)
    exact List.sorted_nil
  · have hs0 : (l.drop (n + 1 - 0)).Sorted (· ≤ ·) := by
      rw [show n + 1 - 0 = l.length by omega, List.drop_length]
      exact List.sorted_nil
    have hb0 : ∀ x ∈ l.take (n + 1 - 0), ∀ y ∈ l.drop (n + 1 - 0), x ≤ y := by
      rw [show n + 1 - 0 = l.length by omega, List.drop_length]
      intro x _ y hy
      exact absurd hy (List.not_mem_nil y)
    have h := outerLoop_inv (n + 1) n 0 l hn (by omega) hs0 hb0
    have hperm := outerLoop_perm n (n + 1) l 0
    have hlen : (outerLoop (n + 1) l 0 n).length = n + 1 := by
      rw [hperm.length_eq, hn]
    have harith : n + 1 - 0 - n = 1 := by omega
    rw [harith] at h
    show (outerLoop (n + 1) l 0 (n + 1 - 1)).Sorted (· ≤ ·)
    rw [show n + 1 - 1 = n by omega]
    rcases hr : outerLoop (n + 1) l 0 n with _ | ⟨x, t⟩
    · exact List.sorted_nil
    · rw [hr] at h
      have hdrop1 : (x :: t).drop 1 = t := rfl
      have htake1 : (x :: t).take 1 = [x] := rfl
      rw [hdrop1, htake1] at h
      refine List.sorted_cons.mpr ⟨fun y hy => h.2 x (by simp) y hy, h.1⟩

/-- C6: `sort()` returns a new container whose element sequence is
non-decreasing under the element type's ordering (`≤` on `int`) and is a
permutation of the receiver's multiset of elements; the receiver's length
and elements are unchanged (`sort` is `const` — in this embedding it is a
pure function of the receiver and only the returned copy is rearranged),
and the returned copy keeps the receiver's length and capacity. -/
theorem sort_spec (s : DA) :
    (sort s).elems.Sorted (· ≤ ·) ∧
    (sort s).elems.Perm s.elems ∧
    size (sort s) = size s ∧
    (sort s).capacity = s.capacity := by
  refine ⟨sortList_sorted s.elems, sortList_perm s.elems, ?_, rfl⟩
  unfold size sort
  exact congrArg Nat.cast (sortList_perm s.elems).length_eq

end DynArray
